import Mathlib

/-
Verification development for the command dispatch registry in
NintbotForDiscord/CommandRegistry.py.

The registry's pattern commands are Python compiled regular expressions.
We embed the fragment of Python regex syntax and semantics that the
registry exercises: literal characters, the dot wildcard, alternation,
concatenation, greedy star/plus/question quantifiers, escaped punctuation
and capturing groups.  Matching is embedded twice: an executable
backtracking matcher mirroring the engine (priority-ordered candidate
lists, greedy quantifiers, leftmost preference), and a relational
semantics Matches used as the mathematical reference.  The two are
connected by soundness and completeness lemmas.
-/

set_option maxHeartbeats 1000000

/-- Abstract syntax of the embedded regular-expression fragment.  grp is a
capturing group; plus and quest are the greedy one-or-more and
zero-or-one quantifiers. -/
inductive Regex where
  | eps : Regex
  | lit : Char → Regex
  | dot : Regex
  | alt : Regex → Regex → Regex
  | cat : Regex → Regex → Regex
  | star : Regex → Regex
  | plus : Regex → Regex
  | quest : Regex → Regex
  | grp : Regex → Regex
  deriving DecidableEq

/-- Number of capturing groups, in Python group-numbering order (a group
is numbered before the groups nested inside it). -/
def numGroups : Regex → Nat
  | .eps => 0
  | .lit _ => 0
  | .dot => 0
  | .alt a b => numGroups a + numGroups b
  | .cat a b => numGroups a + numGroups b
  | .star r => numGroups r
  | .plus r => numGroups r
  | .quest r => numGroups r
  | .grp r => numGroups r + 1

/-- Size measure used to choose a sufficient fuel for the backtracking
matcher; plus counts double because its expansion consumes one extra
unit of fuel without consuming input. -/
def rxSize : Regex → Nat
  | .eps => 1
  | .lit _ => 1
  | .dot => 1
  | .alt a b => rxSize a + rxSize b + 1
  | .cat a b => rxSize a + rxSize b + 1
  | .star r => rxSize r + 1
  | .plus r => rxSize r + 2
  | .quest r => rxSize r + 1
  | .grp r => rxSize r + 1

/-- Capture-group assignment: one entry per group, none when the group
did not participate in the match. -/
abbrev Caps := List (Option (List Char))

/-- All groups of r unset. -/
def noneCaps (r : Regex) : Caps := List.replicate (numGroups r) none

/-- Merge the captures of an earlier and a later quantifier iteration:
the later iteration wins whenever it set the group. -/
def combineCaps (c1 c2 : Caps) : Caps :=
  List.zipWith (fun a b => b.orElse (fun _ => a)) c1 c2

/-- Iteration layer of the greedy star: g is the anchored matcher of
the star's body, nc the unset-captures list of the body.  An iteration
must consume input (the engine's zero-width repetition rule); stopping
is always offered last (greedy preference for more iterations). -/
def starIter (g : Nat → List Char → List (List Char × List Char × Caps)) (nc : Caps) :
    Nat → List Char → List (List Char × List Char × Caps)
  | 0, s => [([], s, nc)]
  | f+1, s =>
      (((g (f+1) s).filter (fun x => !x.1.isEmpty)).flatMap (fun x =>
        (starIter g nc f x.2.1).map
          (fun y => (x.1 ++ y.1, y.2.1, combineCaps x.2.2 y.2.2)))) ++
      [([], s, nc)]

/-- Fueled backtracking matcher.  run f r s returns the priority-ordered
list of candidate matches of r at the start of s, each as
(consumed input, remaining input, captures).  The order mirrors the
Python engine: alternation tries the left branch first, quantifiers are
greedy.  Fuel is spent on quantifier re-expansion only; a fuel of
s.length + rxSize r is always sufficient (run_complete). -/
def run : Nat → Regex → List Char → List (List Char × List Char × Caps)
  | _, .eps, s => [([], s, [])]
  | _, .lit _, [] => []
  | _, .lit c, a :: s => if a = c then [([a], s, [])] else []
  | _, .dot, [] => []
  | _, .dot, a :: s => [([a], s, [])]
  | f, .alt r1 r2, s =>
      ((run f r1 s).map (fun x => (x.1, x.2.1, x.2.2 ++ noneCaps r2))) ++
      ((run f r2 s).map (fun x => (x.1, x.2.1, noneCaps r1 ++ x.2.2)))
  | f, .cat r1 r2, s =>
      (run f r1 s).flatMap (fun x =>
        (run f r2 x.2.1).map (fun y => (x.1 ++ y.1, y.2.1, x.2.2 ++ y.2.2)))
  | f, .grp r, s => (run f r s).map (fun x => (x.1, x.2.1, some x.1 :: x.2.2))
  | f, .star r, s => starIter (fun f2 s2 => run f2 r s2) (noneCaps r) f s
  | 0, .plus _, _ => []
  | f+1, .plus r, s =>
      (run (f+1) r s).flatMap (fun x =>
        (starIter (fun f2 s2 => run f2 r s2) (noneCaps r) f x.2.1).map
          (fun y => (x.1 ++ y.1, y.2.1, combineCaps x.2.2 y.2.2)))
  | f, .quest r, s => (run f r s) ++ [([], s, noneCaps r)]

/-- Relational matching semantics of the embedded fragment: Matches r s
holds when r matches exactly the string s.  plus is one iteration
followed by a star. -/
inductive Matches : Regex → List Char → Prop where
  | eps : Matches .eps []
  | lit (c : Char) : Matches (.lit c) [c]
  | dot (c : Char) : Matches .dot [c]
  | altL {r1 r2 : Regex} {s : List Char} :
      Matches r1 s → Matches (.alt r1 r2) s
  | altR {r1 r2 : Regex} {s : List Char} :
      Matches r2 s → Matches (.alt r1 r2) s
  | cat {r1 r2 : Regex} {s1 s2 : List Char} :
      Matches r1 s1 → Matches r2 s2 → Matches (.cat r1 r2) (s1 ++ s2)
  | starNil {r : Regex} : Matches (.star r) []
  | starCons {r : Regex} {s1 s2 : List Char} :
      Matches r s1 → Matches (.star r) s2 → Matches (.star r) (s1 ++ s2)
  | plusS {r : Regex} {s1 s2 : List Char} :
      Matches r s1 → Matches (.star r) s2 → Matches (.plus r) (s1 ++ s2)
  | questSome {r : Regex} {s : List Char} :
      Matches r s → Matches (.quest r) s
  | questNone {r : Regex} : Matches (.quest r) []
  | grp {r : Regex} {s : List Char} : Matches r s → Matches (.grp r) s

/-- Soundness of the star iteration layer, given soundness of the
body's matcher. -/
theorem starIter_sound (rb : Regex) (g : Nat → List Char → List (List Char × List Char × Caps))
    (hg : ∀ (f : Nat) (s : List Char), ∀ x ∈ g f s, x.1 ++ x.2.1 = s ∧ Matches rb x.1) :
    ∀ (f : Nat) (s : List Char), ∀ x ∈ starIter g (noneCaps rb) f s,
      x.1 ++ x.2.1 = s ∧ Matches (.star rb) x.1 := by
  intro f
  induction f with
  | zero =>
    intro s x h
    simp only [starIter, List.mem_singleton] at h
    subst h
    exact ⟨rfl, Matches.starNil⟩
  | succ m ih =>
    intro s x h
    simp only [starIter, List.mem_append, List.mem_flatMap, List.mem_map,
      List.mem_filter, List.mem_singleton] at h
    rcases h with ⟨y, ⟨hy, _⟩, z, hz, rfl⟩ | rfl
    · have h1 := hg (m+1) s y hy
      have h2 := ih y.2.1 z hz
      refine ⟨?_, Matches.starCons h1.2 h2.2⟩
      dsimp only
      rw [List.append_assoc, h2.1, h1.1]
    · exact ⟨rfl, Matches.starNil⟩

/-- Soundness of the backtracking matcher: every candidate it returns is
a genuine split of the input whose consumed part matches the regex. -/
theorem run_sound : ∀ (f : Nat) (r : Regex) (s : List Char)
    (x : List Char × List Char × Caps), x ∈ run f r s →
    x.1 ++ x.2.1 = s ∧ Matches r x.1 := by
  intro f r
  induction r generalizing f with
  | eps =>
    intro s x h
    simp only [run, List.mem_singleton] at h
    subst h
    exact ⟨rfl, Matches.eps⟩
  | lit c =>
    intro s x h
    cases s with
    | nil => simp [run] at h
    | cons a t =>
      simp only [run] at h
      by_cases hac : a = c
      · rw [if_pos hac] at h
        simp only [List.mem_singleton] at h
        subst h
        subst hac
        exact ⟨rfl, Matches.lit a⟩
      · rw [if_neg hac] at h
        simp at h
  | dot =>
    intro s x h
    cases s with
    | nil => simp [run] at h
    | cons a t =>
      simp only [run, List.mem_singleton] at h
      subst h
      exact ⟨rfl, Matches.dot a⟩
  | alt r1 r2 ih1 ih2 =>
    intro s x h
    simp only [run, List.mem_append, List.mem_map] at h
    rcases h with ⟨y, hy, rfl⟩ | ⟨y, hy, rfl⟩
    · have := ih1 f s y hy
      exact ⟨this.1, Matches.altL this.2⟩
    · have := ih2 f s y hy
      exact ⟨this.1, Matches.altR this.2⟩
  | cat r1 r2 ih1 ih2 =>
    intro s x h
    simp only [run, List.mem_flatMap, List.mem_map] at h
    obtain ⟨y, hy, z, hz, rfl⟩ := h
    have h1 := ih1 f s y hy
    have h2 := ih2 f y.2.1 z hz
    refine ⟨?_, Matches.cat h1.2 h2.2⟩
    dsimp only
    rw [List.append_assoc, h2.1, h1.1]
  | grp rb ihb =>
    intro s x h
    simp only [run, List.mem_map] at h
    obtain ⟨y, hy, rfl⟩ := h
    have := ihb f s y hy
    exact ⟨this.1, Matches.grp this.2⟩
  | star rb ihb =>
    intro s x h
    simp only [run] at h
    exact starIter_sound rb (fun f2 s2 => run f2 rb s2)
      (fun f2 s2 x2 hx2 => ihb f2 s2 x2 hx2) f s x h
  | plus rb ihb =>
    intro s x h
    cases f with
    | zero => simp [run] at h
    | succ m =>
      simp only [run, List.mem_flatMap, List.mem_map] at h
      obtain ⟨y, hy, z, hz, rfl⟩ := h
      have h1 := ihb (m+1) s y hy
      have h2 := starIter_sound rb (fun f2 s2 => run f2 rb s2)
        (fun f2 s2 x2 hx2 => ihb f2 s2 x2 hx2) m y.2.1 z hz
      refine ⟨?_, Matches.plusS h1.2 h2.2⟩
      dsimp only
      rw [List.append_assoc, h2.1, h1.1]
  | quest rb ihb =>
    intro s x h
    simp only [run, List.mem_append, List.mem_singleton] at h
    rcases h with h | rfl
    · have := ihb f s x h
      exact ⟨this.1, Matches.questSome this.2⟩
    · exact ⟨rfl, Matches.questNone⟩

/-- Completeness of the backtracking matcher: whenever r matches a
prefix p of the input and the fuel is at least p.length + rxSize r, a
candidate consuming exactly p appears in the returned list. -/
theorem run_complete {r : Regex} {p : List Char} (hm : Matches r p) :
    ∀ (q : List Char) (f : Nat), p.length + rxSize r ≤ f →
      ∃ caps, (p, q, caps) ∈ run f r (p ++ q) := by
  induction hm with
  | eps =>
    intro q f _
    exact ⟨[], by simp [run]⟩
  | lit c =>
    intro q f _
    exact ⟨[], by simp [run]⟩
  | dot c =>
    intro q f _
    exact ⟨[], by simp [run]⟩
  | altL hm1 ih =>
    rename_i r1 r2 s
    intro q f hf
    obtain ⟨caps, hc⟩ := ih q f (by simp only [rxSize] at hf; omega)
    refine ⟨caps ++ noneCaps r2, ?_⟩
    simp only [run, List.mem_append, List.mem_map]
    exact Or.inl ⟨(s, q, caps), hc, rfl⟩
  | altR hm2 ih =>
    rename_i r1 r2 s
    intro q f hf
    obtain ⟨caps, hc⟩ := ih q f (by simp only [rxSize] at hf; omega)
    refine ⟨noneCaps r1 ++ caps, ?_⟩
    simp only [run, List.mem_append, List.mem_map]
    exact Or.inr ⟨(s, q, caps), hc, rfl⟩
  | cat hm1 hm2 ih1 ih2 =>
    rename_i r1 r2 s1 s2
    intro q f hf
    obtain ⟨c1, hc1⟩ := ih1 (s2 ++ q) f
      (by simp only [rxSize, List.length_append] at hf; omega)
    obtain ⟨c2, hc2⟩ := ih2 q f
      (by simp only [rxSize, List.length_append] at hf; omega)
    refine ⟨c1 ++ c2, ?_⟩
    simp only [run, List.mem_flatMap, List.mem_map, List.append_assoc]
    exact ⟨(s1, s2 ++ q, c1), hc1, (s2, q, c2), hc2, rfl⟩
  | starNil =>
    rename_i rb
    intro q f _
    cases f with
    | zero => exact ⟨noneCaps rb, by simp [run, starIter]⟩
    | succ m =>
      refine ⟨noneCaps rb, ?_⟩
      simp only [run, starIter, List.mem_append, List.mem_singleton]
      exact Or.inr rfl
  | starCons hm1 hm2 ih1 ih2 =>
    rename_i rb s1 s2
    by_cases hs1 : s1 = []
    · subst hs1
      intro q f hf
      simpa using ih2 q f (by simpa using hf)
    · intro q f hf
      have hlen : 1 ≤ s1.length := by
        cases s1 with
        | nil => exact absurd rfl hs1
        | cons a t => simp
      cases f with
      | zero =>
        exfalso
        simp only [rxSize, List.length_append] at hf
        omega
      | succ m =>
        obtain ⟨c1, hc1⟩ := ih1 (s2 ++ q) (m+1)
          (by simp only [rxSize, List.length_append] at hf; omega)
        obtain ⟨c2, hc2⟩ := ih2 q m
          (by simp only [rxSize, List.length_append] at hf ⊢; omega)
        have hc2s : (s2, q, c2) ∈
            starIter (fun f2 s2 => run f2 rb s2) (noneCaps rb) m (s2 ++ q) := by
          simpa [run] using hc2
        refine ⟨combineCaps c1 c2, ?_⟩
        simp only [run, starIter, List.mem_append, List.mem_flatMap, List.mem_map,
          List.mem_filter, List.append_assoc]
        refine Or.inl ⟨(s1, s2 ++ q, c1), ⟨hc1, ?_⟩, (s2, q, c2), hc2s, rfl⟩
        simpa [List.isEmpty_iff] using hs1
  | plusS hm1 hm2 ih1 ih2 =>
    rename_i rb s1 s2
    intro q f hf
    cases f with
    | zero =>
      exfalso
      simp only [rxSize, List.length_append] at hf
      omega
    | succ m =>
      obtain ⟨c1, hc1⟩ := ih1 (s2 ++ q) (m+1)
        (by simp only [rxSize, List.length_append] at hf; omega)
      obtain ⟨c2, hc2⟩ := ih2 q m
        (by simp only [rxSize, List.length_append] at hf ⊢; omega)
      have hc2s : (s2, q, c2) ∈
          starIter (fun f2 s2 => run f2 rb s2) (noneCaps rb) m (s2 ++ q) := by
        simpa [run] using hc2
      refine ⟨combineCaps c1 c2, ?_⟩
      simp only [run, List.mem_flatMap, List.mem_map, List.append_assoc]
      exact ⟨(s1, s2 ++ q, c1), hc1, (s2, q, c2), hc2s, rfl⟩
  | questSome hm1 ih =>
    rename_i rb s
    intro q f hf
    obtain ⟨caps, hc⟩ := ih q f (by simp only [rxSize] at hf; omega)
    refine ⟨caps, ?_⟩
    simp only [run, List.mem_append]
    exact Or.inl hc
  | questNone =>
    rename_i rb
    intro q f _
    refine ⟨noneCaps rb, ?_⟩
    simp only [run, List.mem_append, List.mem_singleton]
    exact Or.inr rfl
  | grp hm1 ih =>
    rename_i rb s
    intro q f hf
    obtain ⟨caps, hc⟩ := ih q f (by simp only [rxSize] at hf; omega)
    refine ⟨some s :: caps, ?_⟩
    simp only [run, List.mem_map]
    exact ⟨(s, q, caps), hc, rfl⟩

/-- The candidate list that Python re.match inspects: the backtracking
matcher anchored at the start of s, with always-sufficient fuel. -/
def pyMatchList (r : Regex) (s : List Char) : List (List Char × List Char × Caps) :=
  run (s.length + rxSize r) r s

/-- Truthiness of Python re.match: some candidate exists at position 0. -/
def reMatchB (r : Regex) (s : List Char) : Bool := !(pyMatchList r s).isEmpty

/-- Full-match semantics (Python re.fullmatch): some candidate consumes
the whole input. -/
def reFullmatchB (r : Regex) (s : List Char) : Bool :=
  (pyMatchList r s).any (fun x => x.2.1.isEmpty)

/-- re.match truthiness agrees with the relational semantics: a match at
the start of s exists exactly when r matches some prefix of s. -/
theorem reMatchB_iff (r : Regex) (s : List Char) :
    reMatchB r s = true ↔ ∃ p q, s = p ++ q ∧ Matches r p := by
  constructor
  · intro h
    have hne : pyMatchList r s ≠ [] := by
      simp only [reMatchB, Bool.not_eq_true'] at h
      exact List.isEmpty_eq_false.mp h
    obtain ⟨x, hx⟩ := List.exists_mem_of_ne_nil _ hne
    have := run_sound _ r s x hx
    exact ⟨x.1, x.2.1, (this.1).symm, this.2⟩
  · rintro ⟨p, q, rfl, hm⟩
    obtain ⟨caps, hc⟩ := run_complete hm q ((p ++ q).length + rxSize r)
      (by simp only [List.length_append]; omega)
    simp only [reMatchB, Bool.not_eq_true']
    exact List.isEmpty_eq_false.mpr (List.ne_nil_of_mem hc)

/-- re.fullmatch agrees with the relational semantics on the whole
input. -/
theorem reFullmatchB_iff (r : Regex) (s : List Char) :
    reFullmatchB r s = true ↔ Matches r s := by
  constructor
  · intro h
    simp only [reFullmatchB, List.any_eq_true] at h
    obtain ⟨x, hx, hempty⟩ := h
    have hs := run_sound _ r s x hx
    have hrest : x.2.1 = [] := List.isEmpty_iff.mp hempty
    have h1 := hs.1
    rw [hrest, List.append_nil] at h1
    exact h1 ▸ hs.2
  · intro hm
    obtain ⟨caps, hc⟩ := run_complete hm [] (s.length + rxSize r) (by omega)
    rw [List.append_nil] at hc
    simp only [reFullmatchB, List.any_eq_true]
    exact ⟨(s, [], caps), hc, by simp⟩

/-- Python str.lstrip with a chars argument, as used in
CommandRegistry.handle_command on the raw message content: it removes
ALL leading characters that belong to the given character set, not one
occurrence of the set string. -/
def pyLstrip (s chars : List Char) : List Char :=
  s.dropWhile (fun c => decide (c ∈ chars))

/-- The command body the dispatcher matches patterns against:
args.content.lstrip(bot.config command-prefix string). -/
def strippedBody (commandPfx content : String) : List Char :=
  pyLstrip content.toList commandPfx.toList

/-- Characterization of dropWhile: the input splits into a prefix of
elements satisfying the predicate followed by the result, and the
result's head (when present) fails the predicate. -/
theorem dropWhile_split (p : α → Bool) (l : List α) :
    ∃ u, l = u ++ l.dropWhile p ∧ (∀ c ∈ u, p c = true) ∧
      ∀ c, (l.dropWhile p).head? = some c → p c = false := by
  induction l with
  | nil =>
    refine ⟨[], by simp, by simp, ?_⟩
    intro c hc
    simp at hc
  | cons a t ih =>
    by_cases hp : p a = true
    · obtain ⟨u, hu1, hu2, hu3⟩ := ih
      have hd : (a :: t).dropWhile p = t.dropWhile p := by
        simp [List.dropWhile_cons, hp]
      refine ⟨a :: u, ?_, ?_, ?_⟩
      · rw [hd]
        simpa using hu1
      · intro c hc
        rcases List.mem_cons.mp hc with rfl | hc
        · exact hp
        · exact hu2 c hc
      · intro c hc
        rw [hd] at hc
        exact hu3 c hc
    · have hp2 : p a = false := by
        cases hpa : p a
        · rfl
        · exact absurd hpa hp
      have hd : (a :: t).dropWhile p = a :: t := by
        simp [List.dropWhile_cons, hp2]
      refine ⟨[], by simp [hd], by simp, ?_⟩
      intro c hc
      rw [hd] at hc
      simp only [List.head?_cons, Option.some.injEq] at hc
      subst hc
      exact hp2

/-- The value of one element of a Python re.findall result: the whole
matched text when the pattern has no capturing group, the content of
group 1 when it has exactly one, and the tuple of group contents when
it has two or more. -/
inductive FindallValue where
  | str : String → FindallValue
  | tup : List String → FindallValue
  deriving DecidableEq

/-- Render one capture slot the way findall does: an unset group
becomes the empty string. -/
def capString (o : Option (List Char)) : String := (o.getD []).asString

/-- Python findall element extraction from a match (matched text and
captures), depending on the number of groups in the pattern. -/
def findallItem (r : Regex) (p : List Char) (caps : Caps) : FindallValue :=
  match numGroups r with
  | 0 => .str p.asString
  | 1 => .str (capString (caps.headD none))
  | _ + 2 => .tup (caps.map capString)

/-- One step of Python re.findall's left-to-right scan: the engine's
preferred candidate of the anchored matcher at the current position. -/
def findallStep (r : Regex) (s : List Char) : Option (List Char × Caps) :=
  (run (s.length + rxSize r) r s).head?.map (fun x => (x.1, x.2.2))

/-- The first match found by Python re.findall's left-to-right scan:
try the anchored matcher at each successive start position and take the
engine's preferred candidate at the first position that has one. -/
def pyFindallFirst (r : Regex) : List Char → Option (List Char × Caps)
  | [] => findallStep r []
  | a :: t =>
    match findallStep r (a :: t) with
    | some v => some v
    | none => pyFindallFirst r t

/-- findall(...)[0] as the dispatcher uses it: the extracted value of
the first findall element, if any. -/
def pyFindallFirstVal (r : Regex) (s : List Char) : Option FindallValue :=
  (pyFindallFirst r s).map (fun x => findallItem r x.1 x.2)

/-- A successful scan step at the current position settles the scan. -/
theorem pyFindallFirst_of_step (r : Regex) (s : List Char)
    (v : List Char × Caps) (h : findallStep r s = some v) :
    pyFindallFirst r s = some v := by
  cases s with
  | nil => simpa [pyFindallFirst] using h
  | cons a t =>
    simp only [pyFindallFirst]
    rw [h]

/-- When re.match succeeded at position 0, findall's first element is
the engine-preferred candidate at position 0, so findall(...)[0] cannot
fail. -/
theorem pyFindallFirst_of_match (r : Regex) (s : List Char)
    (h : (pyMatchList r s).isEmpty = false) :
    ∃ x t, pyMatchList r s = x :: t ∧ pyFindallFirst r s = some (x.1, x.2.2) := by
  rw [List.isEmpty_eq_false] at h
  obtain ⟨x, t, hxt⟩ := List.exists_cons_of_ne_nil h
  refine ⟨x, t, hxt, ?_⟩
  apply pyFindallFirst_of_step
  unfold findallStep
  rw [show run (s.length + rxSize r) r s = x :: t from hxt]
  rfl

/-- Compile error raised by re.compile on an invalid pattern source
(Python re.error / PatternCompileError in the spec's taxonomy). -/
inductive PatternCompileError where
  | invalid : PatternCompileError
  deriving DecidableEq

deriving instance DecidableEq for Except

mutual

/-- Alternation level of the pattern grammar: seq ('|' seq)*. -/
def parseAltF : Nat → List Char → Except PatternCompileError (Regex × List Char)
  | 0, _ => .error .invalid
  | f+1, cs =>
    match parseSeqF f cs with
    | .error e => .error e
    | .ok (r1, rest) =>
      match rest with
      | '|' :: rest2 =>
        match parseAltF f rest2 with
        | .error e => .error e
        | .ok (r2, rest3) => .ok (.alt r1 r2, rest3)
      | _ => .ok (r1, rest)

/-- Sequence level: a possibly empty run of quantified atoms, stopping
at end of input, ')' or '|'. -/
def parseSeqF : Nat → List Char → Except PatternCompileError (Regex × List Char)
  | 0, _ => .error .invalid
  | f+1, cs =>
    match cs with
    | [] => .ok (.eps, [])
    | ')' :: _ => .ok (.eps, cs)
    | '|' :: _ => .ok (.eps, cs)
    | _ =>
      match parsePieceF f cs with
      | .error e => .error e
      | .ok (r1, rest) =>
        match parseSeqF f rest with
        | .error e => .error e
        | .ok (r2, rest2) => .ok (.cat r1 r2, rest2)

/-- One atom with an optional greedy quantifier. -/
def parsePieceF : Nat → List Char → Except PatternCompileError (Regex × List Char)
  | 0, _ => .error .invalid
  | f+1, cs =>
    match parseAtomF f cs with
    | .error e => .error e
    | .ok (a, rest) =>
      match rest with
      | '*' :: rest2 => .ok (.star a, rest2)
      | '+' :: rest2 => .ok (.plus a, rest2)
      | '?' :: rest2 => .ok (.quest a, rest2)
      | _ => .ok (a, rest)

/-- Atom level: a capturing group, the dot wildcard, an escaped
punctuation character, or a literal.  Constructs outside the embedded
fragment (character classes, anchors, alphanumeric escapes) and
quantifiers with nothing to repeat are compile errors. -/
def parseAtomF : Nat → List Char → Except PatternCompileError (Regex × List Char)
  | 0, _ => .error .invalid
  | f+1, cs =>
    match cs with
    | [] => .error .invalid
    | '(' :: rest =>
      match parseAltF f rest with
      | .error e => .error e
      | .ok (r, rest2) =>
        match rest2 with
        | ')' :: rest3 => .ok (.grp r, rest3)
        | _ => .error .invalid
    | '.' :: rest => .ok (.dot, rest)
    | '\\' :: c :: rest =>
      if c.isAlphanum then .error .invalid else .ok (.lit c, rest)
    | ['\\'] => .error .invalid
    | c :: rest =>
      if c = '*' ∨ c = '+' ∨ c = '?' ∨ c = '[' ∨ c = '^' ∨ c = '$'
      then .error .invalid
      else .ok (.lit c, rest)

end

/-- Model of Python re.compile as called by register_modern_command,
over the embedded fragment of regex source syntax.  A source string is
valid exactly when the whole input parses at the alternation level. -/
def compileRe (source : String) : Except PatternCompileError Regex :=
  match parseAltF (4 * source.length + 8) source.toList with
  | .error e => .error e
  | .ok (r, []) => .ok r
  | .ok (_, _ :: _) => .error .invalid

/-- Modelled from the spec: the inbound event shape delivered by the
message-transport collaborator (raw message handle, author identity,
channel handle, content string).  The CommandSentEvent class itself
(Events.py) is not among the provided sources; following the spec, both
the attribute access args.author of the exact-command loop and the
indexing access of the pattern loop yield the author identity field. -/
structure InboundEvent (Msg Chan User : Type) where
  message : Msg
  author : User
  channel : Chan
  content : String
  deriving DecidableEq

/-- Modelled from the spec: the InvocationContext constructed afresh for
each pattern-command invocation, with the first findall element as the
captured argument.  Field order follows the constructor call in
handle_command: message, author, channel, pattern source string,
captured argument. -/
structure InvocationContext (Msg Chan User : Type) where
  message : Msg
  author : User
  channel : Chan
  command : String
  argument : FindallValue
  deriving DecidableEq

/-- The value a handler is invoked with: the raw inbound event for
exact commands, a fresh InvocationContext for pattern commands. -/
inductive HandlerArg (Msg Chan User : Type) where
  | inbound : InboundEvent Msg Chan User → HandlerArg Msg Chan User
  | fresh : InvocationContext Msg Chan User → HandlerArg Msg Chan User
  deriving DecidableEq

/-- Outcome of awaiting one handler under asyncio.wait_for: it completed
within event_timeout, it exceeded event_timeout (asyncio.TimeoutError),
or it raised some other exception. -/
inductive HOutcome where
  | ok : HOutcome
  | timeout : HOutcome
  | err : HOutcome
  deriving DecidableEq

/-- One exact-match entry: the dict appended by register_command. -/
structure CommandEntry (Perm Plugin Handler : Type) where
  command : String
  description : String
  required_permission : Perm
  plugin : Plugin
  handler : Option Handler
  deriving DecidableEq

/-- One pattern ("modern") entry: the dict appended by
register_modern_command; command holds the compiled pattern and
command_string its source text. -/
structure ModernCommandEntry (Perm Plugin Handler : Type) where
  command : Regex
  command_string : String
  description : String
  required_permission : Perm
  plugin : Plugin
  handler : Option Handler
  deriving DecidableEq

/-- The registry's two insertion-ordered entry sequences. -/
structure RegistryState (Perm Plugin Handler : Type) where
  commands : List (CommandEntry Perm Plugin Handler)
  modern_commands : List (ModernCommandEntry Perm Plugin Handler)
  deriving DecidableEq

/-- A record of one handler invocation performed by dispatch: which
entry was run and the argument its handler received. -/
inductive Invocation (Msg Chan User Perm Plugin Handler : Type) where
  | exact : CommandEntry Perm Plugin Handler → InboundEvent Msg Chan User →
      Invocation Msg Chan User Perm Plugin Handler
  | modern : ModernCommandEntry Perm Plugin Handler → InvocationContext Msg Chan User →
      Invocation Msg Chan User Perm Plugin Handler
  deriving DecidableEq

/-- The entry named by a timeout report (the first format argument of
the bot.logger.warning call is the whole entry dict). -/
inductive SinkTag (Perm Plugin Handler : Type) where
  | exactEntry : CommandEntry Perm Plugin Handler → SinkTag Perm Plugin Handler
  | modernEntry : ModernCommandEntry Perm Plugin Handler → SinkTag Perm Plugin Handler
  deriving DecidableEq

/-- One timeout report sent to the observability sink: the timed-out
entry together with the owning plugin's manifest name. -/
structure SinkEvent (Perm Plugin Handler : Type) where
  entry : SinkTag Perm Plugin Handler
  pluginName : String
  deriving DecidableEq

/-- The observable result of one handle_command call: the handler
invocations performed in order, the timeout reports emitted in order,
and whether an uncaught handler exception propagated to the caller
(raised = true also means processing stopped at that entry). -/
structure DispatchOutcome (Msg Chan User Perm Plugin Handler : Type) where
  invocations : List (Invocation Msg Chan User Perm Plugin Handler)
  sinkEvents : List (SinkEvent Perm Plugin Handler)
  raised : Bool
  deriving DecidableEq

section Registry

variable {Msg Chan User Perm Plugin Handler : Type}
variable [DecidableEq Perm] [DecidableEq Plugin] [DecidableEq Handler]

/-- CommandRegistry.register_command: appends one exact entry; always
succeeds, no uniqueness check.  Python's command_handler parameter
defaults to None; passing none here models omitting it. -/
def register_command (st : RegistryState Perm Plugin Handler)
    (command description : String) (required_perm : Perm) (plugin : Plugin)
    (command_handler : Option Handler) : RegistryState Perm Plugin Handler :=
  { st with commands :=
      st.commands ++ [⟨command, description, required_perm, plugin, command_handler⟩] }

/-- CommandRegistry.register_modern_command: compiles the pattern source
first; the compile error propagates before anything is appended, so a
failed registration leaves the registry unchanged. -/
def register_modern_command (st : RegistryState Perm Plugin Handler)
    (command description : String) (required_perm : Perm) (plugin : Plugin)
    (command_handler : Option Handler) :
    Except PatternCompileError (RegistryState Perm Plugin Handler) :=
  match compileRe command with
  | .error e => .error e
  | .ok r => .ok { st with modern_commands :=
      st.modern_commands ++ [⟨r, command, description, required_perm, plugin, command_handler⟩] }

/-- The for-loop-over-a-copy-with-remove idiom of the unregister
methods: iterate over the snapshot iter and remove from acc the first
occurrence of every element satisfying the predicate. -/
def eraseFold [DecidableEq α] (pred : α → Bool) (iter acc : List α) : List α :=
  iter.foldl (fun ac x => if pred x then ac.erase x else ac) acc

/-- CommandRegistry.unregister_command: removes every exact entry whose
name and owner both match; pattern entries are unaffected. -/
def unregister_command (st : RegistryState Perm Plugin Handler)
    (command_name : String) (plugin : Plugin) : RegistryState Perm Plugin Handler :=
  let pred := fun (c : CommandEntry Perm Plugin Handler) =>
    decide (c.command = command_name) && decide (c.plugin = plugin)
  { st with commands := eraseFold pred st.commands st.commands }

/-- CommandRegistry.unregister_all_commands_for_plugin: removes every
entry owned by the plugin from both sequences. -/
def unregister_all_commands_for_plugin (st : RegistryState Perm Plugin Handler)
    (plugin : Plugin) : RegistryState Perm Plugin Handler :=
  { commands := eraseFold (fun c => decide (c.plugin = plugin)) st.commands st.commands,
    modern_commands := eraseFold (fun c => decide (c.plugin = plugin)) st.modern_commands st.modern_commands }

/-- CommandRegistry.get_available_commands_for_user: the exact entries
whose required permission the user satisfies, in registration order.
The permission oracle has_permission is the abstract parameter
hasPermission. -/
def get_available_commands_for_user (hasPermission : Perm → User → Bool)
    (st : RegistryState Perm Plugin Handler) (user : User) :
    List (CommandEntry Perm Plugin Handler) :=
  st.commands.filter (fun i => hasPermission i.required_permission user)

/-- CommandRegistry.get_info_for_command: all exact entries with the
given name, in registration order. -/
def get_info_for_command (st : RegistryState Perm Plugin Handler)
    (command : String) : List (CommandEntry Perm Plugin Handler) :=
  st.commands.filter (fun i => decide (i.command = command))

end Registry

section Dispatch

variable {Msg Chan User Perm Plugin Handler : Type}
variable (hasPermission : Perm → User → Bool)
variable (runHandler : Handler → HandlerArg Msg Chan User → HOutcome)
variable (manifestName : Plugin → String)

/-- The exact-command loop of handle_command: for each entry whose name
equals command_name and whose handler is not None, check the permission
of args.author, run the handler under the timeout, absorb a timeout
(recording one warning tagged with the entry and the owning plugin's
manifest name) and keep going; any other handler exception propagates,
which aborts the loop. -/
def exactLoop (command_name : String) (args : InboundEvent Msg Chan User) :
    List (CommandEntry Perm Plugin Handler) →
    DispatchOutcome Msg Chan User Perm Plugin Handler
  | [] => ⟨[], [], false⟩
  | c :: rest =>
    if c.command = command_name then
      match c.handler with
      | none => exactLoop command_name args rest
      | some h =>
        if hasPermission c.required_permission args.author then
          match runHandler h (.inbound args) with
          | .err => ⟨[.exact c args], [], true⟩
          | .timeout =>
            let r := exactLoop command_name args rest
            ⟨.exact c args :: r.invocations,
             ⟨.exactEntry c, manifestName c.plugin⟩ :: r.sinkEvents, r.raised⟩
          | .ok =>
            let r := exactLoop command_name args rest
            ⟨.exact c args :: r.invocations, r.sinkEvents, r.raised⟩
        else exactLoop command_name args rest
    else exactLoop command_name args rest

/-- The pattern-command loop of handle_command: for each modern entry
whose compiled pattern re.match-es the lstrip-stripped message body and
whose handler is not None, check the permission, build a fresh
InvocationContext whose argument is findall(stripped body)[0], run the
handler under the timeout with the same absorb-and-report policy.
The unreachable none branch of the findall lookup models the IndexError
that findall(...)[0] would raise on an empty list. -/
def modernLoop (commandPfx : String) (args : InboundEvent Msg Chan User) :
    List (ModernCommandEntry Perm Plugin Handler) →
    DispatchOutcome Msg Chan User Perm Plugin Handler
  | [] => ⟨[], [], false⟩
  | c :: rest =>
    if (pyMatchList c.command (strippedBody commandPfx args.content)).isEmpty then
      modernLoop commandPfx args rest
    else
      match c.handler with
      | none => modernLoop commandPfx args rest
      | some h =>
        if hasPermission c.required_permission args.author then
          match pyFindallFirstVal c.command (strippedBody commandPfx args.content) with
          | none => ⟨[], [], true⟩
          | some v =>
            let ctx : InvocationContext Msg Chan User :=
              ⟨args.message, args.author, args.channel, c.command_string, v⟩
            match runHandler h (.fresh ctx) with
            | .err => ⟨[.modern c ctx], [], true⟩
            | .timeout =>
              let r := modernLoop commandPfx args rest
              ⟨.modern c ctx :: r.invocations,
               ⟨.modernEntry c, manifestName c.plugin⟩ :: r.sinkEvents, r.raised⟩
            | .ok =>
              let r := modernLoop commandPfx args rest
              ⟨.modern c ctx :: r.invocations, r.sinkEvents, r.raised⟩
        else modernLoop commandPfx args rest

/-- Sequential composition of the two loops: if the first propagated an
exception, the second never runs. -/
def seqOutcome (a b : DispatchOutcome Msg Chan User Perm Plugin Handler) :
    DispatchOutcome Msg Chan User Perm Plugin Handler :=
  if a.raised then a
  else ⟨a.invocations ++ b.invocations, a.sinkEvents ++ b.sinkEvents, b.raised⟩

/-- CommandRegistry.handle_command: the exact loop over _commands
followed by the pattern loop over _modern_commands.  commandPfx is the
configured bot.config command-prefix string. -/
def handle_command (commandPfx : String) (st : RegistryState Perm Plugin Handler)
    (command_name : String) (args : InboundEvent Msg Chan User) :
    DispatchOutcome Msg Chan User Perm Plugin Handler :=
  seqOutcome
    (exactLoop hasPermission runHandler manifestName command_name args st.commands)
    (modernLoop hasPermission runHandler manifestName commandPfx args st.modern_commands)

/-- Selection condition of the exact loop: name equality, a non-None
handler, and the permission check. -/
def exactSel (command_name : String) (args : InboundEvent Msg Chan User)
    (c : CommandEntry Perm Plugin Handler) : Bool :=
  decide (c.command = command_name) && c.handler.isSome &&
    hasPermission c.required_permission args.author

/-- The outcome the handler of an exact entry produces on args. -/
def exactOutcome (args : InboundEvent Msg Chan User)
    (c : CommandEntry Perm Plugin Handler) : HOutcome :=
  match c.handler with
  | some h => runHandler h (.inbound args)
  | none => .ok

/-- The fresh InvocationContext the pattern loop builds for an entry. -/
def modernCtx (commandPfx : String) (args : InboundEvent Msg Chan User)
    (c : ModernCommandEntry Perm Plugin Handler) : InvocationContext Msg Chan User :=
  ⟨args.message, args.author, args.channel, c.command_string,
   (pyFindallFirstVal c.command (strippedBody commandPfx args.content)).getD (.str "")⟩

/-- Selection condition of the pattern loop: re.match truthiness on the
stripped body, a non-None handler, and the permission check. -/
def modernSel (commandPfx : String) (args : InboundEvent Msg Chan User)
    (c : ModernCommandEntry Perm Plugin Handler) : Bool :=
  !(pyMatchList c.command (strippedBody commandPfx args.content)).isEmpty &&
    c.handler.isSome && hasPermission c.required_permission args.author

/-- The outcome the handler of a pattern entry produces on its fresh
context. -/
def modernOutcome (commandPfx : String) (args : InboundEvent Msg Chan User)
    (c : ModernCommandEntry Perm Plugin Handler) : HOutcome :=
  match c.handler with
  | some h => runHandler h (.fresh (modernCtx commandPfx args c))
  | none => .ok

end Dispatch

section DispatchLemmas

variable {Msg Chan User Perm Plugin Handler : Type}
variable (hasPermission : Perm → User → Bool)
variable (runHandler : Handler → HandlerArg Msg Chan User → HOutcome)
variable (manifestName : Plugin → String)

/-- One-entry unfolding of the exact loop, phrased with the selection
condition and the handler outcome. -/
theorem exactLoop_cons_char (command_name : String) (args : InboundEvent Msg Chan User)
    (c : CommandEntry Perm Plugin Handler) (rest : List (CommandEntry Perm Plugin Handler)) :
    exactLoop hasPermission runHandler manifestName command_name args (c :: rest) =
      if exactSel hasPermission command_name args c = true then
        match exactOutcome runHandler args c with
        | .err => ⟨[.exact c args], [], true⟩
        | .timeout =>
          ⟨.exact c args :: (exactLoop hasPermission runHandler manifestName command_name args rest).invocations,
           ⟨.exactEntry c, manifestName c.plugin⟩ ::
             (exactLoop hasPermission runHandler manifestName command_name args rest).sinkEvents,
           (exactLoop hasPermission runHandler manifestName command_name args rest).raised⟩
        | .ok =>
          ⟨.exact c args :: (exactLoop hasPermission runHandler manifestName command_name args rest).invocations,
           (exactLoop hasPermission runHandler manifestName command_name args rest).sinkEvents,
           (exactLoop hasPermission runHandler manifestName command_name args rest).raised⟩
      else exactLoop hasPermission runHandler manifestName command_name args rest := by
  by_cases hname : c.command = command_name
  · cases hh : c.handler with
    | none => simp [exactLoop, exactSel, hname, hh]
    | some hd =>
      by_cases hperm : hasPermission c.required_permission args.author = true
      · cases hout : runHandler hd (.inbound args) with
        | err => simp [exactLoop, exactSel, exactOutcome, hname, hh, hperm, hout]
        | timeout => simp [exactLoop, exactSel, exactOutcome, hname, hh, hperm, hout]
        | ok => simp [exactLoop, exactSel, exactOutcome, hname, hh, hperm, hout]
      · simp [exactLoop, exactSel, hname, hh, hperm]
  · simp [exactLoop, exactSel, hname]

/-- One-entry unfolding of the pattern loop, phrased with the selection
condition, the fresh context, and the handler outcome. -/
theorem modernLoop_cons_char (commandPfx : String) (args : InboundEvent Msg Chan User)
    (c : ModernCommandEntry Perm Plugin Handler)
    (rest : List (ModernCommandEntry Perm Plugin Handler)) :
    modernLoop hasPermission runHandler manifestName commandPfx args (c :: rest) =
      if modernSel hasPermission commandPfx args c = true then
        match modernOutcome runHandler commandPfx args c with
        | .err => ⟨[.modern c (modernCtx commandPfx args c)], [], true⟩
        | .timeout =>
          ⟨.modern c (modernCtx commandPfx args c) ::
             (modernLoop hasPermission runHandler manifestName commandPfx args rest).invocations,
           ⟨.modernEntry c, manifestName c.plugin⟩ ::
             (modernLoop hasPermission runHandler manifestName commandPfx args rest).sinkEvents,
           (modernLoop hasPermission runHandler manifestName commandPfx args rest).raised⟩
        | .ok =>
          ⟨.modern c (modernCtx commandPfx args c) ::
             (modernLoop hasPermission runHandler manifestName commandPfx args rest).invocations,
           (modernLoop hasPermission runHandler manifestName commandPfx args rest).sinkEvents,
           (modernLoop hasPermission runHandler manifestName commandPfx args rest).raised⟩
      else modernLoop hasPermission runHandler manifestName commandPfx args rest := by
  by_cases hmatch : (pyMatchList c.command (strippedBody commandPfx args.content)).isEmpty = true
  · simp [modernLoop, modernSel, hmatch]
  · have hm2 : (pyMatchList c.command (strippedBody commandPfx args.content)).isEmpty = false :=
      Bool.not_eq_true _ ▸ hmatch
    cases hh : c.handler with
    | none => simp [modernLoop, modernSel, hmatch, hm2, hh]
    | some hd =>
      by_cases hperm : hasPermission c.required_permission args.author = true
      · obtain ⟨x, t, hxt, hff⟩ :=
          pyFindallFirst_of_match c.command (strippedBody commandPfx args.content) hm2
        have hv : pyFindallFirstVal c.command (strippedBody commandPfx args.content) =
            some (findallItem c.command x.1 x.2.2) := by
          simp [pyFindallFirstVal, hff]
        have hctx : modernCtx commandPfx args c =
            ⟨args.message, args.author, args.channel, c.command_string,
             findallItem c.command x.1 x.2.2⟩ := by
          simp [modernCtx, hv]
        cases hout : runHandler hd (.fresh (modernCtx commandPfx args c)) with
        | err =>
          rw [hctx] at hout
          simp [modernLoop, modernSel, modernOutcome, hm2, hh, hperm, hv, hctx, hout]
        | timeout =>
          rw [hctx] at hout
          simp [modernLoop, modernSel, modernOutcome, hm2, hh, hperm, hv, hctx, hout]
        | ok =>
          rw [hctx] at hout
          simp [modernLoop, modernSel, modernOutcome, hm2, hh, hperm, hv, hctx, hout]
      · simp [modernLoop, modernSel, hm2, hh, hperm]

end DispatchLemmas

section LoopCharacterization

variable {Msg Chan User Perm Plugin Handler : Type}
variable (hasPermission : Perm → User → Bool)
variable (runHandler : Handler → HandlerArg Msg Chan User → HOutcome)
variable (manifestName : Plugin → String)

/-- An exact entry's outcome is never an uncaught exception when no
handler raises one. -/
theorem exactOutcome_ne_err
    (hnoerr : ∀ hd a, runHandler hd a ≠ HOutcome.err)
    (args : InboundEvent Msg Chan User) (c : CommandEntry Perm Plugin Handler) :
    exactOutcome runHandler args c ≠ HOutcome.err := by
  cases hh : c.handler with
  | none => simp [exactOutcome, hh]
  | some hd =>
    simp only [exactOutcome, hh]
    exact hnoerr hd _

/-- A pattern entry's outcome is never an uncaught exception when no
handler raises one. -/
theorem modernOutcome_ne_err
    (hnoerr : ∀ hd a, runHandler hd a ≠ HOutcome.err)
    (commandPfx : String) (args : InboundEvent Msg Chan User)
    (c : ModernCommandEntry Perm Plugin Handler) :
    modernOutcome runHandler commandPfx args c ≠ HOutcome.err := by
  cases hh : c.handler with
  | none => simp [modernOutcome, hh]
  | some hd =>
    simp only [modernOutcome, hh]
    exact hnoerr hd _

/-- Full characterization of the exact loop when no handler raises an
uncaught exception: it invokes exactly the selected entries in order,
reports exactly the timed-out ones in order, and does not raise. -/
theorem exactLoop_char
    (hnoerr : ∀ hd a, runHandler hd a ≠ HOutcome.err)
    (command_name : String) (args : InboundEvent Msg Chan User) :
    ∀ cmds : List (CommandEntry Perm Plugin Handler),
      exactLoop hasPermission runHandler manifestName command_name args cmds =
        ⟨(cmds.filter (exactSel hasPermission command_name args)).map
           (fun c => .exact c args),
         (cmds.filter (fun c => exactSel hasPermission command_name args c &&
             decide (exactOutcome runHandler args c = HOutcome.timeout))).map
           (fun c => ⟨.exactEntry c, manifestName c.plugin⟩),
         false⟩ := by
  intro cmds
  induction cmds with
  | nil => simp [exactLoop]
  | cons c rest ih =>
    rw [exactLoop_cons_char, ih]
    by_cases hsel : exactSel hasPermission command_name args c = true
    · cases hout : exactOutcome runHandler args c with
      | err => exact absurd hout (exactOutcome_ne_err runHandler hnoerr args c)
      | timeout => simp [List.filter_cons, hsel, hout]
      | ok => simp [List.filter_cons, hsel, hout]
    · simp [List.filter_cons, hsel]

/-- Full characterization of the pattern loop when no handler raises an
uncaught exception. -/
theorem modernLoop_char
    (hnoerr : ∀ hd a, runHandler hd a ≠ HOutcome.err)
    (commandPfx : String) (args : InboundEvent Msg Chan User) :
    ∀ cmds : List (ModernCommandEntry Perm Plugin Handler),
      modernLoop hasPermission runHandler manifestName commandPfx args cmds =
        ⟨(cmds.filter (modernSel hasPermission commandPfx args)).map
           (fun c => .modern c (modernCtx commandPfx args c)),
         (cmds.filter (fun c => modernSel hasPermission commandPfx args c &&
             decide (modernOutcome runHandler commandPfx args c = HOutcome.timeout))).map
           (fun c => ⟨.modernEntry c, manifestName c.plugin⟩),
         false⟩ := by
  intro cmds
  induction cmds with
  | nil => simp [modernLoop]
  | cons c rest ih =>
    rw [modernLoop_cons_char, ih]
    by_cases hsel : modernSel hasPermission commandPfx args c = true
    · cases hout : modernOutcome runHandler commandPfx args c with
      | err => exact absurd hout (modernOutcome_ne_err runHandler hnoerr commandPfx args c)
      | timeout => simp [List.filter_cons, hsel, hout]
      | ok => simp [List.filter_cons, hsel, hout]
    · simp [List.filter_cons, hsel]

/-- Full characterization of handle_command when no handler raises an
uncaught exception: exact invocations in registration order, then
pattern invocations in registration order; timeout reports likewise;
nothing propagates to the caller. -/
theorem handle_command_char
    (hnoerr : ∀ hd a, runHandler hd a ≠ HOutcome.err)
    (commandPfx : String) (st : RegistryState Perm Plugin Handler)
    (command_name : String) (args : InboundEvent Msg Chan User) :
    handle_command hasPermission runHandler manifestName commandPfx st command_name args =
      ⟨(st.commands.filter (exactSel hasPermission command_name args)).map
          (fun c => .exact c args) ++
        (st.modern_commands.filter (modernSel hasPermission commandPfx args)).map
          (fun c => .modern c (modernCtx commandPfx args c)),
       (st.commands.filter (fun c => exactSel hasPermission command_name args c &&
           decide (exactOutcome runHandler args c = HOutcome.timeout))).map
          (fun c => ⟨.exactEntry c, manifestName c.plugin⟩) ++
        (st.modern_commands.filter (fun c => modernSel hasPermission commandPfx args c &&
           decide (modernOutcome runHandler commandPfx args c = HOutcome.timeout))).map
          (fun c => ⟨.modernEntry c, manifestName c.plugin⟩),
       false⟩ := by
  unfold handle_command
  rw [exactLoop_char hasPermission runHandler manifestName hnoerr,
    modernLoop_char hasPermission runHandler manifestName hnoerr]
  simp [seqOutcome]

end LoopCharacterization

section DispatchInvariants

variable {Msg Chan User Perm Plugin Handler : Type}
variable (hasPermission : Perm → User → Bool)
variable (runHandler : Handler → HandlerArg Msg Chan User → HOutcome)
variable (manifestName : Plugin → String)

/-- Whether the permission gate held for the entry behind an
invocation, for the author of the dispatched event. -/
def invocationPermitted (args : InboundEvent Msg Chan User) :
    Invocation Msg Chan User Perm Plugin Handler → Bool
  | .exact c _ => hasPermission c.required_permission args.author
  | .modern c _ => hasPermission c.required_permission args.author

/-- Whether the entry behind an invocation has a non-None handler. -/
def invocationHandled : Invocation Msg Chan User Perm Plugin Handler → Bool
  | .exact c _ => c.handler.isSome
  | .modern c _ => c.handler.isSome

/-- Every invocation the exact loop performs passed the permission
check and came from an entry with a non-None handler (no assumption on
handler outcomes). -/
theorem exactLoop_inv (command_name : String) (args : InboundEvent Msg Chan User) :
    ∀ (cmds : List (CommandEntry Perm Plugin Handler))
      (inv : Invocation Msg Chan User Perm Plugin Handler),
      inv ∈ (exactLoop hasPermission runHandler manifestName command_name args cmds).invocations →
      invocationPermitted hasPermission args inv = true ∧ invocationHandled inv = true := by
  intro cmds
  induction cmds with
  | nil =>
    intro inv h
    simp [exactLoop] at h
  | cons c rest ih =>
    intro inv h
    rw [exactLoop_cons_char] at h
    by_cases hsel : exactSel hasPermission command_name args c = true
    · have hsel2 := hsel
      simp only [exactSel, Bool.and_eq_true, decide_eq_true_eq] at hsel2
      simp only [hsel, if_true] at h
      cases hout : exactOutcome runHandler args c with
      | err =>
        rw [hout] at h
        simp only [List.mem_singleton] at h
        subst h
        simp [invocationPermitted, invocationHandled, hsel2.1.2, hsel2.2]
      | timeout =>
        rw [hout] at h
        simp only [List.mem_cons] at h
        rcases h with rfl | h
        · simp [invocationPermitted, invocationHandled, hsel2.1.2, hsel2.2]
        · exact ih inv h
      | ok =>
        rw [hout] at h
        simp only [List.mem_cons] at h
        rcases h with rfl | h
        · simp [invocationPermitted, invocationHandled, hsel2.1.2, hsel2.2]
        · exact ih inv h
    · simp only [hsel, if_false] at h
      exact ih inv h

/-- Every invocation the pattern loop performs passed the permission
check, came from an entry with a non-None handler, and received the
loop's fresh context for that entry. -/
theorem modernLoop_inv (commandPfx : String) (args : InboundEvent Msg Chan User) :
    ∀ (cmds : List (ModernCommandEntry Perm Plugin Handler))
      (inv : Invocation Msg Chan User Perm Plugin Handler),
      inv ∈ (modernLoop hasPermission runHandler manifestName commandPfx args cmds).invocations →
      invocationPermitted hasPermission args inv = true ∧ invocationHandled inv = true ∧
      ∀ m ctx, inv = Invocation.modern m ctx → ctx = modernCtx commandPfx args m := by
  intro cmds
  induction cmds with
  | nil =>
    intro inv h
    simp [modernLoop] at h
  | cons c rest ih =>
    intro inv h
    rw [modernLoop_cons_char] at h
    by_cases hsel : modernSel hasPermission commandPfx args c = true
    · have hsel2 := hsel
      simp only [modernSel, Bool.and_eq_true] at hsel2
      simp only [hsel, if_true] at h
      cases hout : modernOutcome runHandler commandPfx args c with
      | err =>
        rw [hout] at h
        simp only [List.mem_singleton] at h
        subst h
        refine ⟨by simp [invocationPermitted, hsel2.2], by simp [invocationHandled, hsel2.1.2], ?_⟩
        intro m ctx he
        injection he with e1 e2
        subst e1
        exact e2.symm
      | timeout =>
        rw [hout] at h
        simp only [List.mem_cons] at h
        rcases h with rfl | h
        · refine ⟨by simp [invocationPermitted, hsel2.2], by simp [invocationHandled, hsel2.1.2], ?_⟩
          intro m ctx he
          injection he with e1 e2
          subst e1
          exact e2.symm
        · exact ih inv h
      | ok =>
        rw [hout] at h
        simp only [List.mem_cons] at h
        rcases h with rfl | h
        · refine ⟨by simp [invocationPermitted, hsel2.2], by simp [invocationHandled, hsel2.1.2], ?_⟩
          intro m ctx he
          injection he with e1 e2
          subst e1
          exact e2.symm
        · exact ih inv h
    · simp only [hsel, if_false] at h
      exact ih inv h

/-- The exact loop never performs a pattern invocation. -/
theorem exactLoop_no_modern (command_name : String) (args : InboundEvent Msg Chan User) :
    ∀ (cmds : List (CommandEntry Perm Plugin Handler))
      (m : ModernCommandEntry Perm Plugin Handler) (ctx : InvocationContext Msg Chan User),
      Invocation.modern m ctx ∉
        (exactLoop hasPermission runHandler manifestName command_name args cmds).invocations := by
  intro cmds
  induction cmds with
  | nil =>
    intro m ctx h
    simp [exactLoop] at h
  | cons c rest ih =>
    intro m ctx h
    rw [exactLoop_cons_char] at h
    by_cases hsel : exactSel hasPermission command_name args c = true
    · simp only [hsel, if_true] at h
      cases hout : exactOutcome runHandler args c with
      | err =>
        rw [hout] at h
        simp at h
      | timeout =>
        rw [hout] at h
        simp only [List.mem_cons] at h
        rcases h with h | h
        · exact absurd h (by simp)
        · exact ih m ctx h
      | ok =>
        rw [hout] at h
        simp only [List.mem_cons] at h
        rcases h with h | h
        · exact absurd h (by simp)
        · exact ih m ctx h
    · simp only [hsel, if_false] at h
      exact ih m ctx h

/-- Every invocation handle_command performs passed the permission
check and came from an entry with a non-None handler. -/
theorem handle_command_inv (commandPfx : String)
    (st : RegistryState Perm Plugin Handler) (command_name : String)
    (args : InboundEvent Msg Chan User)
    (inv : Invocation Msg Chan User Perm Plugin Handler)
    (h : inv ∈ (handle_command hasPermission runHandler manifestName
        commandPfx st command_name args).invocations) :
    invocationPermitted hasPermission args inv = true ∧ invocationHandled inv = true := by
  unfold handle_command seqOutcome at h
  by_cases hr : (exactLoop hasPermission runHandler manifestName
      command_name args st.commands).raised = true
  · simp only [hr, if_true] at h
    exact (exactLoop_inv hasPermission runHandler manifestName command_name args
      st.commands inv h).imp id id
  · rw [if_neg hr] at h
    simp only [List.mem_append] at h
    rcases h with h | h
    · exact exactLoop_inv hasPermission runHandler manifestName command_name args
        st.commands inv h
    · have := modernLoop_inv hasPermission runHandler manifestName commandPfx args
        st.modern_commands inv h
      exact ⟨this.1, this.2.1⟩

/-- Every pattern invocation handle_command performs received the fresh
per-entry context built from the stripped body and findall. -/
theorem handle_command_ctx (commandPfx : String)
    (st : RegistryState Perm Plugin Handler) (command_name : String)
    (args : InboundEvent Msg Chan User)
    (m : ModernCommandEntry Perm Plugin Handler) (ctx : InvocationContext Msg Chan User)
    (h : Invocation.modern m ctx ∈ (handle_command hasPermission runHandler manifestName
        commandPfx st command_name args).invocations) :
    ctx = modernCtx commandPfx args m := by
  unfold handle_command seqOutcome at h
  by_cases hr : (exactLoop hasPermission runHandler manifestName
      command_name args st.commands).raised = true
  · simp only [hr, if_true] at h
    exact absurd h (exactLoop_no_modern hasPermission runHandler manifestName
      command_name args st.commands m ctx)
  · rw [if_neg hr] at h
    simp only [List.mem_append] at h
    rcases h with h | h
    · exact absurd h (exactLoop_no_modern hasPermission runHandler manifestName
        command_name args st.commands m ctx)
    · exact (modernLoop_inv hasPermission runHandler manifestName commandPfx args
        st.modern_commands _ h).2.2 m ctx rfl

/-- Appending an exact entry whose handler is None does not change the
exact loop at all: the entry is skipped without any effect. -/
theorem exactLoop_append_none (command_name : String) (args : InboundEvent Msg Chan User)
    (e : CommandEntry Perm Plugin Handler) (he : e.handler = none) :
    ∀ l : List (CommandEntry Perm Plugin Handler),
      exactLoop hasPermission runHandler manifestName command_name args (l ++ [e]) =
        exactLoop hasPermission runHandler manifestName command_name args l := by
  intro l
  induction l with
  | nil =>
    have hsel : exactSel hasPermission command_name args e = false := by
      simp [exactSel, he]
    rw [List.nil_append, exactLoop_cons_char]
    simp [hsel]
  | cons c rest ih =>
    rw [List.cons_append, exactLoop_cons_char, exactLoop_cons_char, ih]

end DispatchInvariants

/-- Removing from a list, by the copy-then-remove-first idiom, every
element an iteration list marks, when none of the marked elements can
equal a given head: the head survives in place. -/
theorem eraseFold_cons_of_forall [DecidableEq α] (pred : α → Bool) :
    ∀ (t : List α) (a : α) (acc : List α), (∀ y ∈ t, pred y = true → y ≠ a) →
      eraseFold pred t (a :: acc) = a :: eraseFold pred t acc := by
  intro t
  induction t with
  | nil => intro a acc _; rfl
  | cons y t ih =>
    intro a acc hy
    by_cases hp : pred y = true
    · have hne : y ≠ a := hy y (List.mem_cons_self y t) hp
      have herase : (a :: acc).erase y = a :: acc.erase y := by
        rw [List.erase_cons, if_neg]
        simp only [beq_iff_eq]
        exact fun h => hne h.symm
      have h1 : eraseFold pred (y :: t) (a :: acc) = eraseFold pred t (a :: acc.erase y) := by
        simp [eraseFold, List.foldl_cons, hp, herase]
      have h2 : eraseFold pred (y :: t) acc = eraseFold pred t (acc.erase y) := by
        simp [eraseFold, List.foldl_cons, hp]
      rw [h1, h2]
      exact ih a (acc.erase y) (fun z hz hpz => hy z (List.mem_cons_of_mem y hz) hpz)
    · have h1 : eraseFold pred (y :: t) (a :: acc) = eraseFold pred t (a :: acc) := by
        simp [eraseFold, List.foldl_cons, hp]
      have h2 : eraseFold pred (y :: t) acc = eraseFold pred t acc := by
        simp [eraseFold, List.foldl_cons, hp]
      rw [h1, h2]
      exact ih a acc (fun z hz hpz => hy z (List.mem_cons_of_mem y hz) hpz)

/-- The copy-then-remove-first loop over a list, with the list itself
as initial accumulator, is exactly a filter: every marked element is
removed (each occurrence once) and every other element survives in
order. -/
theorem eraseFold_self [DecidableEq α] (pred : α → Bool) :
    ∀ l : List α, eraseFold pred l l = l.filter (fun x => !pred x) := by
  intro l
  induction l with
  | nil => rfl
  | cons x xs ih =>
    by_cases hp : pred x = true
    · have h1 : eraseFold pred (x :: xs) (x :: xs) = eraseFold pred xs xs := by
        simp [eraseFold, List.foldl_cons, hp, List.erase_cons_head]
      rw [h1, ih, List.filter_cons]
      simp [hp]
    · have h1 : eraseFold pred (x :: xs) (x :: xs) = eraseFold pred xs (x :: xs) := by
        simp [eraseFold, List.foldl_cons, hp]
      have h2 : eraseFold pred xs (x :: xs) = x :: eraseFold pred xs xs := by
        refine eraseFold_cons_of_forall pred xs x xs (fun y hy hpy => ?_)
        intro he
        subst he
        exact hp hpy
      rw [h1, h2, ih, List.filter_cons]
      simp [hp]

/-- Concrete permission model for witnesses: a permission is a Bool
granted to every user or to none (has_permission ignores the user). -/
def wHasPerm : Bool → String → Bool := fun b _ => b

/-- Concrete handler model for witnesses: a handler is the outcome it
produces, either completing in time or exceeding event_timeout. -/
def wRunH : Bool → HandlerArg Nat Nat String → HOutcome :=
  fun b _ => if b then .ok else .timeout

/-- Concrete plugin model for witnesses: the plugin handle is its own
manifest name. -/
def wManifest : String → String := fun s => s

/-- No concrete handler raises an uncaught exception. -/
theorem wRunH_no_err : ∀ (hd : Bool) (a : HandlerArg Nat Nat String),
    wRunH hd a ≠ HOutcome.err := by
  intro hd a
  cases hd <;> simp [wRunH]

/-- compileRe "ping". -/
def pingAst : Regex :=
  .cat (.lit 'p') (.cat (.lit 'i') (.cat (.lit 'n') (.cat (.lit 'g') .eps)))

/-- compileRe "!ping". -/
def bangPingAst : Regex := .cat (.lit '!') pingAst

/-- compileRe "echo (.+)". -/
def echoAst : Regex :=
  .cat (.lit 'e') (.cat (.lit 'c') (.cat (.lit 'h') (.cat (.lit 'o')
    (.cat (.lit ' ') (.cat (.grp (.cat (.plus .dot) .eps)) .eps)))))

/-- compileRe "ab". -/
def abAst : Regex := .cat (.lit 'a') (.cat (.lit 'b') .eps)

/-- A registered pattern entry for source "ping". -/
def pingEntry : ModernCommandEntry Bool String Bool :=
  ⟨pingAst, "ping", "d", true, "plug", some true⟩

/-- A registry holding only pingEntry. -/
def pingState : RegistryState Bool String Bool := ⟨[], [pingEntry]⟩

/-- A registered pattern entry for source "!ping". -/
def bangPingEntry : ModernCommandEntry Bool String Bool :=
  ⟨bangPingAst, "!ping", "d", true, "plug", some true⟩

/-- A registry holding only bangPingEntry. -/
def bangPingState : RegistryState Bool String Bool := ⟨[], [bangPingEntry]⟩

/-- A registered pattern entry for source "echo (.+)". -/
def echoEntry : ModernCommandEntry Bool String Bool :=
  ⟨echoAst, "echo (.+)", "d", true, "plug", some true⟩

/-- A registry holding only echoEntry. -/
def echoState : RegistryState Bool String Bool := ⟨[], [echoEntry]⟩

/-- Stated from the spec's words for comparison (claim C2): remove
exactly one leading occurrence of the prefix string from the text,
leaving the text unchanged when it does not start with it. -/
def specStripOne (commandPfx t : String) : String :=
  if commandPfx.toList.isPrefixOf t.toList
  then (t.toList.drop commandPfx.toList.length).asString
  else t

/-- Stated from the spec's words for comparison (claim C7): the first
capture group of the anchored match, empty when the pattern has no
capturing group or the match set none. -/
def specCapturedFirstGroup (r : Regex) (s : List Char) : String :=
  match (pyMatchList r s).head? with
  | none => ""
  | some x => capString (x.2.2.headD none)

/-- Claim C1, counterexample.  The claim says a pattern entry is
considered exactly when the pattern matches the entire stripped body,
so that pattern "ping" against body "pingpong" does not select the
entry.  In the code the selection uses Python re.match, which only
anchors at the start: with pattern "ping" registered and message
"!pingpong" under prefix "!", the entry's handler IS invoked although
"ping" does not match the entire body "pingpong". -/
theorem claim_c1_counterexample :
    compileRe "ping" = Except.ok pingAst ∧
    (handle_command wHasPerm wRunH wManifest "!" pingState "zzz"
        ⟨0, "alice", 0, "!pingpong"⟩).invocations =
      [Invocation.modern pingEntry ⟨0, "alice", 0, "ping", FindallValue.str "ping"⟩] ∧
    reFullmatchB pingAst ("pingpong".toList) = false ∧
    ¬ Matches pingAst ("pingpong".toList) := by
  refine ⟨by decide, by decide, by decide, ?_⟩
  intro hm
  exact absurd ((reFullmatchB_iff pingAst ("pingpong".toList)).mpr hm) (by decide)

/-- Claim C1 (amended): pattern-command selection uses Python re.match,
which anchors at the start of the prefix-stripped body but not at its
end.  For every registered pattern entry with a non-None handler and a
satisfied permission, dispatch performs an invocation of that entry
exactly when its pattern matches some prefix of the stripped body (so a
pattern matching only a proper prefix, such as "ping" against
"pingpong", does select the entry; full-match is not required). -/
theorem claim_c1_pattern_selection_is_start_anchored
    {Msg Chan User Perm Plugin Handler : Type}
    (hasPermission : Perm → User → Bool)
    (runHandler : Handler → HandlerArg Msg Chan User → HOutcome)
    (manifestName : Plugin → String)
    (hnoerr : ∀ hd a, runHandler hd a ≠ HOutcome.err)
    (commandPfx : String) (st : RegistryState Perm Plugin Handler)
    (command_name : String) (args : InboundEvent Msg Chan User)
    (m : ModernCommandEntry Perm Plugin Handler)
    (hm : m ∈ st.modern_commands) (hh : m.handler.isSome = true)
    (hp : hasPermission m.required_permission args.author = true) :
    (∃ ctx, Invocation.modern m ctx ∈
        (handle_command hasPermission runHandler manifestName
          commandPfx st command_name args).invocations) ↔
      ∃ p q, strippedBody commandPfx args.content = p ++ q ∧ Matches m.command p := by
  rw [handle_command_char hasPermission runHandler manifestName hnoerr]
  constructor
  · rintro ⟨ctx, hctx⟩
    simp only [List.mem_append, List.mem_map, List.mem_filter] at hctx
    rcases hctx with ⟨c, hc, he⟩ | ⟨c, hc, he⟩
    · exact absurd he (by simp)
    · injection he with e1 e2
      subst e1
      have hb : reMatchB c.command (strippedBody commandPfx args.content) = true := by
        have hsel := hc.2
        simp only [modernSel, Bool.and_eq_true] at hsel
        exact hsel.1.1
      exact (reMatchB_iff _ _).mp hb
  · rintro ⟨p, q, hsplit, hmat⟩
    have hb : reMatchB m.command (strippedBody commandPfx args.content) = true :=
      (reMatchB_iff _ _).mpr ⟨p, q, hsplit, hmat⟩
    refine ⟨modernCtx commandPfx args m, ?_⟩
    simp only [List.mem_append, List.mem_map, List.mem_filter]
    refine Or.inr ⟨m, ⟨hm, ?_⟩, rfl⟩
    simp only [modernSel, Bool.and_eq_true]
    exact ⟨⟨hb, hh⟩, hp⟩

/-- Claim C1, witness: the amended theorem applied at pattern "ping"
and message "!pingpong" under prefix "!" ("ping" is a prefix of the
stripped body), showing the entry is selected. -/
theorem claim_c1_witness :
    ∃ ctx, Invocation.modern pingEntry ctx ∈
      (handle_command wHasPerm wRunH wManifest "!" pingState "zzz"
        ⟨0, "alice", 0, "!pingpong"⟩).invocations :=
  (claim_c1_pattern_selection_is_start_anchored wHasPerm wRunH wManifest
      wRunH_no_err "!" pingState "zzz" ⟨0, "alice", 0, "!pingpong"⟩ pingEntry
      (by decide) (by decide) (by decide)).mpr
    ⟨"ping".toList, "pong".toList, by decide,
     (reFullmatchB_iff pingAst ("ping".toList)).mp (by decide)⟩

/-- Claim C2, counterexample.  The claim says the body used for pattern
matching is the raw text with exactly one leading occurrence of the
prefix string removed.  The code uses str.lstrip, which removes every
leading character of the prefix's character set: for prefix "!" and
text "!!ping" the code's body is "ping", not the claim's "!ping"; with
the pattern "!ping" registered, the claim's body would match (even as a
full match) yet the dispatcher performs no invocation. -/
theorem claim_c2_counterexample :
    strippedBody "!" "!!ping" = "ping".toList ∧
    specStripOne "!" "!!ping" = "!ping" ∧
    strippedBody "!" "!!ping" ≠ ("!ping").toList ∧
    compileRe "!ping" = Except.ok bangPingAst ∧
    (handle_command wHasPerm wRunH wManifest "!" bangPingState "zzz"
        ⟨0, "alice", 0, "!!ping"⟩).invocations = [] ∧
    reFullmatchB bangPingAst ("!ping".toList) = true := by
  refine ⟨by decide, ?_, by decide, by decide, by decide, by decide⟩
  decide

/-- Claim C2 (amended): the body the dispatcher matches patterns
against is the raw message text with its maximal run of leading
characters drawn from the prefix string's character set removed (Python
str.lstrip semantics): the removed prefix consists only of characters
of the prefix string, and the first remaining character, if any, is not
in the prefix string.  The text is unchanged exactly when its first
character is not in the prefix set; no other leading characters are
removed. -/
theorem claim_c2_body_is_lstrip_of_prefix_charset (commandPfx content : String) :
    ∃ u, content.toList = u ++ strippedBody commandPfx content ∧
      (∀ c ∈ u, c ∈ commandPfx.toList) ∧
      ∀ c, (strippedBody commandPfx content).head? = some c → c ∉ commandPfx.toList := by
  obtain ⟨u, h1, h2, h3⟩ :=
    dropWhile_split (fun c => decide (c ∈ commandPfx.toList)) content.toList
  refine ⟨u, h1, ?_, ?_⟩
  · intro c hc
    have := h2 c hc
    simpa using this
  · intro c hc
    have := h3 c hc
    simpa using this

/-- Claim C2, witness: the amended theorem applied at prefix "!" and
text "!!ping". -/
theorem claim_c2_witness :
    ∃ u, ("!!ping").toList = u ++ strippedBody "!" "!!ping" ∧
      (∀ c ∈ u, c ∈ ("!").toList) ∧
      ∀ c, (strippedBody "!" "!!ping").head? = some c → c ∉ ("!").toList :=
  claim_c2_body_is_lstrip_of_prefix_charset "!" "!!ping"

/-- Claim C3: dispatch never raises to its caller under normal
operation (no uncaught handler exception): whatever the registry, the
message, the permission outcomes, and any mixture of completing and
timing-out handlers, handle_command returns with raised = false; and a
message whose stripped body matches no pattern and equals no registered
name produces no handler invocations and no reports at all — the
dispatcher completes silently.  The permission check and the context
construction inside the pattern loop are covered: the fresh-context
findall lookup cannot fail when the selection match succeeded. -/
theorem claim_c3_dispatch_never_raises
    {Msg Chan User Perm Plugin Handler : Type}
    (hasPermission : Perm → User → Bool)
    (runHandler : Handler → HandlerArg Msg Chan User → HOutcome)
    (manifestName : Plugin → String)
    (hnoerr : ∀ hd a, runHandler hd a ≠ HOutcome.err)
    (commandPfx : String) (st : RegistryState Perm Plugin Handler)
    (command_name : String) (args : InboundEvent Msg Chan User) :
    (handle_command hasPermission runHandler manifestName
        commandPfx st command_name args).raised = false ∧
    ((∀ c ∈ st.commands, c.command ≠ command_name) →
     (∀ m ∈ st.modern_commands,
        (pyMatchList m.command (strippedBody commandPfx args.content)).isEmpty = true) →
     handle_command hasPermission runHandler manifestName
        commandPfx st command_name args = ⟨[], [], false⟩) := by
  rw [handle_command_char hasPermission runHandler manifestName hnoerr]
  refine ⟨rfl, ?_⟩
  intro hex hmod
  have he1 : st.commands.filter (exactSel hasPermission command_name args) = [] := by
    rw [List.filter_eq_nil_iff]
    intro c hc
    simp [exactSel, hex c hc]
  have he2 : st.commands.filter (fun c => exactSel hasPermission command_name args c &&
      decide (exactOutcome runHandler args c = HOutcome.timeout)) = [] := by
    rw [List.filter_eq_nil_iff]
    intro c hc
    simp [exactSel, hex c hc]
  have hm1 : st.modern_commands.filter (modernSel hasPermission commandPfx args) = [] := by
    rw [List.filter_eq_nil_iff]
    intro c hc
    simp [modernSel, hmod c hc]
  have hm2 : st.modern_commands.filter (fun c => modernSel hasPermission commandPfx args c &&
      decide (modernOutcome runHandler commandPfx args c = HOutcome.timeout)) = [] := by
    rw [List.filter_eq_nil_iff]
    intro c hc
    simp [modernSel, hmod c hc]
  rw [he1, he2, hm1, hm2]
  rfl

/-- Claim C3, witness: a registry with one exact command "hello" and
one pattern command "ping"; dispatching name "bye" with content
"!nomatch" matches nothing and completes silently with no invocations,
no reports, and nothing raised. -/
theorem claim_c3_witness :
    handle_command wHasPerm wRunH wManifest "!"
      (⟨[⟨"hello", "d", true, "plug", some true⟩], [pingEntry]⟩ :
        RegistryState Bool String Bool)
      "bye" ⟨0, "alice", 0, "!nomatch"⟩ = ⟨[], [], false⟩ :=
  (claim_c3_dispatch_never_raises wHasPerm wRunH wManifest wRunH_no_err "!"
      ⟨[⟨"hello", "d", true, "plug", some true⟩], [pingEntry]⟩
      "bye" ⟨0, "alice", 0, "!nomatch"⟩).2
    (by decide) (by decide)

/-- An exact entry whose permissions deny the author. -/
def deniedExactEntry : CommandEntry Bool String Bool :=
  ⟨"hello", "d", false, "plug", some true⟩

/-- A pattern entry whose permissions deny the author. -/
def deniedModernEntry : ModernCommandEntry Bool String Bool :=
  ⟨pingAst, "ping", "d", false, "plug", some true⟩

/-- Claim C4: the permission gate.  For every registered entry, exact
or pattern, whose required permission the author of the dispatched
event does not satisfy, handle_command never performs an invocation of
that entry — whatever the message, the registry contents, or the
handler outcomes (including uncaught handler errors elsewhere). -/
theorem claim_c4_permission_gate
    {Msg Chan User Perm Plugin Handler : Type}
    (hasPermission : Perm → User → Bool)
    (runHandler : Handler → HandlerArg Msg Chan User → HOutcome)
    (manifestName : Plugin → String)
    (commandPfx : String) (st : RegistryState Perm Plugin Handler)
    (command_name : String) (args : InboundEvent Msg Chan User)
    (e : CommandEntry Perm Plugin Handler)
    (hpe : hasPermission e.required_permission args.author = false)
    (me : ModernCommandEntry Perm Plugin Handler)
    (hpm : hasPermission me.required_permission args.author = false) :
    (∀ a, Invocation.exact e a ∉ (handle_command hasPermission runHandler manifestName
        commandPfx st command_name args).invocations) ∧
    (∀ ctx, Invocation.modern me ctx ∉ (handle_command hasPermission runHandler manifestName
        commandPfx st command_name args).invocations) := by
  constructor
  · intro a h
    have hperm := (handle_command_inv hasPermission runHandler manifestName
      commandPfx st command_name args _ h).1
    simp only [invocationPermitted] at hperm
    rw [hpe] at hperm
    exact absurd hperm (by decide)
  · intro ctx h
    have hperm := (handle_command_inv hasPermission runHandler manifestName
      commandPfx st command_name args _ h).1
    simp only [invocationPermitted] at hperm
    rw [hpm] at hperm
    exact absurd hperm (by decide)

/-- Claim C4, witness: with the denied entries registered (and their
patterns matching the message), neither is invoked. -/
theorem claim_c4_witness :
    Invocation.exact deniedExactEntry ⟨0, "alice", 0, "hello"⟩ ∉
      (handle_command wHasPerm wRunH wManifest "!"
        ⟨[deniedExactEntry], [deniedModernEntry]⟩ "hello"
        ⟨0, "alice", 0, "hello"⟩).invocations ∧
    Invocation.modern deniedModernEntry ⟨0, "alice", 0, "ping", FindallValue.str "ping"⟩ ∉
      (handle_command wHasPerm wRunH wManifest "!"
        ⟨[deniedExactEntry], [deniedModernEntry]⟩ "hello"
        ⟨0, "alice", 0, "hello"⟩).invocations :=
  ⟨(claim_c4_permission_gate wHasPerm wRunH wManifest "!"
      ⟨[deniedExactEntry], [deniedModernEntry]⟩ "hello" ⟨0, "alice", 0, "hello"⟩
      deniedExactEntry (by decide) deniedModernEntry (by decide)).1
      ⟨0, "alice", 0, "hello"⟩,
   (claim_c4_permission_gate wHasPerm wRunH wManifest "!"
      ⟨[deniedExactEntry], [deniedModernEntry]⟩ "hello" ⟨0, "alice", 0, "hello"⟩
      deniedExactEntry (by decide) deniedModernEntry (by decide)).2
      ⟨0, "alice", 0, "ping", FindallValue.str "ping"⟩⟩

/-- Claim C5: no short-circuit on first match.  When no handler raises
an uncaught exception, the invocation list is exactly the selected
exact entries in registration order followed by the selected pattern
entries in registration order; in particular every exact entry with
the dispatched name, a non-None handler and a satisfied permission is
invoked — two distinct same-name entries are both invoked, even if an
earlier entry timed out or failed its permission check. -/
theorem claim_c5_no_short_circuit
    {Msg Chan User Perm Plugin Handler : Type}
    (hasPermission : Perm → User → Bool)
    (runHandler : Handler → HandlerArg Msg Chan User → HOutcome)
    (manifestName : Plugin → String)
    (hnoerr : ∀ hd a, runHandler hd a ≠ HOutcome.err)
    (commandPfx : String) (st : RegistryState Perm Plugin Handler)
    (command_name : String) (args : InboundEvent Msg Chan User) :
    (handle_command hasPermission runHandler manifestName
        commandPfx st command_name args).invocations =
      (st.commands.filter (exactSel hasPermission command_name args)).map
        (fun c => .exact c args) ++
      (st.modern_commands.filter (modernSel hasPermission commandPfx args)).map
        (fun c => .modern c (modernCtx commandPfx args c)) ∧
    ∀ e ∈ st.commands, exactSel hasPermission command_name args e = true →
      Invocation.exact e args ∈ (handle_command hasPermission runHandler manifestName
        commandPfx st command_name args).invocations := by
  have hc := handle_command_char hasPermission runHandler manifestName hnoerr
    commandPfx st command_name args
  constructor
  · rw [hc]
  · intro e he hsel
    rw [hc]
    simp only [List.mem_append, List.mem_map, List.mem_filter]
    exact Or.inl ⟨e, ⟨he, hsel⟩, rfl⟩

/-- Two distinct exact entries sharing the name "hello". -/
def helloE1 : CommandEntry Bool String Bool := ⟨"hello", "one", true, "plugA", some true⟩

/-- A second exact entry with the same name as helloE1. -/
def helloE2 : CommandEntry Bool String Bool := ⟨"hello", "two", true, "plugB", some true⟩

/-- Claim C5, witness: dispatching "hello" against a registry holding
helloE1 and helloE2 invokes both, in registration order. -/
theorem claim_c5_witness :
    (handle_command wHasPerm wRunH wManifest "!"
        (⟨[helloE1, helloE2], []⟩ : RegistryState Bool String Bool) "hello"
        ⟨0, "alice", 0, "hello"⟩).invocations =
      [Invocation.exact helloE1 ⟨0, "alice", 0, "hello"⟩,
       Invocation.exact helloE2 ⟨0, "alice", 0, "hello"⟩] :=
  Eq.trans
    ((claim_c5_no_short_circuit wHasPerm wRunH wManifest wRunH_no_err "!"
      ⟨[helloE1, helloE2], []⟩ "hello" ⟨0, "alice", 0, "hello"⟩).1)
    (by decide)

/-- Claim C6: the handler timeout policy.  When no handler raises an
uncaught exception, the reports sent to the observability sink are
exactly one per selected entry whose handler exceeded event_timeout, in
processing order, each tagged with that entry (hence its command name
or pattern source) and the owning plugin's manifest name; dispatch
itself completes with nothing propagated to its caller, and subsequent
matching entries are still processed (the invocation list is the full
filter of claim C5's characterization). -/
theorem claim_c6_timeout_reported_absorbed
    {Msg Chan User Perm Plugin Handler : Type}
    (hasPermission : Perm → User → Bool)
    (runHandler : Handler → HandlerArg Msg Chan User → HOutcome)
    (manifestName : Plugin → String)
    (hnoerr : ∀ hd a, runHandler hd a ≠ HOutcome.err)
    (commandPfx : String) (st : RegistryState Perm Plugin Handler)
    (command_name : String) (args : InboundEvent Msg Chan User) :
    (handle_command hasPermission runHandler manifestName
        commandPfx st command_name args).sinkEvents =
      (st.commands.filter (fun c => exactSel hasPermission command_name args c &&
          decide (exactOutcome runHandler args c = HOutcome.timeout))).map
        (fun c => ⟨.exactEntry c, manifestName c.plugin⟩) ++
      (st.modern_commands.filter (fun c => modernSel hasPermission commandPfx args c &&
          decide (modernOutcome runHandler commandPfx args c = HOutcome.timeout))).map
        (fun c => ⟨.modernEntry c, manifestName c.plugin⟩) ∧
    (handle_command hasPermission runHandler manifestName
        commandPfx st command_name args).raised = false := by
  rw [handle_command_char hasPermission runHandler manifestName hnoerr]
  exact ⟨rfl, rfl⟩

/-- An exact entry whose handler exceeds event_timeout. -/
def slowEntry : CommandEntry Bool String Bool := ⟨"slow", "d", true, "plugX", some false⟩

/-- Claim C6, witness: dispatching "slow" against a registry holding
slowEntry (whose handler times out) and helloE1 produces exactly one
timeout report, tagged with the slow entry and its plugin's name, the
handler is still counted as invoked, and dispatch returns normally. -/
theorem claim_c6_witness :
    (handle_command wHasPerm wRunH wManifest "!"
        (⟨[slowEntry, helloE1], []⟩ : RegistryState Bool String Bool) "slow"
        ⟨0, "alice", 0, "slow"⟩).sinkEvents =
      [⟨SinkTag.exactEntry slowEntry, "plugX"⟩] ∧
    (handle_command wHasPerm wRunH wManifest "!"
        (⟨[slowEntry, helloE1], []⟩ : RegistryState Bool String Bool) "slow"
        ⟨0, "alice", 0, "slow"⟩).raised = false :=
  ⟨Eq.trans
    ((claim_c6_timeout_reported_absorbed wHasPerm wRunH wManifest wRunH_no_err "!"
      ⟨[slowEntry, helloE1], []⟩ "slow" ⟨0, "alice", 0, "slow"⟩).1)
    (by decide),
   (claim_c6_timeout_reported_absorbed wHasPerm wRunH wManifest wRunH_no_err "!"
      ⟨[slowEntry, helloE1], []⟩ "slow" ⟨0, "alice", 0, "slow"⟩).2⟩

/-- Claim C7, counterexample.  The claim says captured_argument is the
first capture group of the match, empty when the pattern has no
capturing group.  The code uses findall(stripped body)[0], which for a
pattern with no groups is the full matched text: with pattern "ping"
(zero groups) and stripped body "ping", the handler receives
captured_argument "ping", not the empty string the claim requires. -/
theorem claim_c7_counterexample :
    (handle_command wHasPerm wRunH wManifest "!" pingState "zzz"
        ⟨0, "alice", 0, "!ping"⟩).invocations =
      [Invocation.modern pingEntry ⟨0, "alice", 0, "ping", FindallValue.str "ping"⟩] ∧
    numGroups pingAst = 0 ∧
    specCapturedFirstGroup pingAst (strippedBody "!" "!ping") = "" ∧
    FindallValue.str "ping" ≠ FindallValue.str "" := by
  decide

/-- Claim C7 (amended): for every matching pattern entry the dispatcher
constructs a fresh InvocationContext from the inbound event — same
message, author and channel, the entry's pattern source as the command
— whose captured argument is findall(stripped body)[0]: the content of
group 1 of the leftmost match when the pattern has exactly one
capturing group (so for pattern "echo (.+)" and stripped body
"echo test" the handler receives "test"), the full matched text when it
has none, and the tuple of group contents when it has several. -/
theorem claim_c7_captured_argument_is_findall_first
    {Msg Chan User Perm Plugin Handler : Type}
    (hasPermission : Perm → User → Bool)
    (runHandler : Handler → HandlerArg Msg Chan User → HOutcome)
    (manifestName : Plugin → String)
    (commandPfx : String) (st : RegistryState Perm Plugin Handler)
    (command_name : String) (args : InboundEvent Msg Chan User)
    (m : ModernCommandEntry Perm Plugin Handler) (ctx : InvocationContext Msg Chan User)
    (h : Invocation.modern m ctx ∈ (handle_command hasPermission runHandler manifestName
        commandPfx st command_name args).invocations) :
    ctx.message = args.message ∧ ctx.author = args.author ∧
    ctx.channel = args.channel ∧ ctx.command = m.command_string ∧
    ctx.argument = (pyFindallFirstVal m.command
        (strippedBody commandPfx args.content)).getD (FindallValue.str "") := by
  have hctx := handle_command_ctx hasPermission runHandler manifestName
    commandPfx st command_name args m ctx h
  subst hctx
  simp [modernCtx]

/-- The fresh context the echo scenario's handler receives. -/
def echoCtx : InvocationContext Nat Nat String := ⟨0, "alice", 0, "echo (.+)", .str "test"⟩

/-- Claim C7, witness: the spec's echo scenario.  Pattern "echo (.+)"
with stripped body "echo test": the handler is invoked with the
captured argument "test". -/
theorem claim_c7_witness :
    compileRe "echo (.+)" = Except.ok echoAst ∧
    Invocation.modern echoEntry echoCtx ∈ (handle_command wHasPerm wRunH wManifest "!"
        echoState "zzz" ⟨0, "alice", 0, "!echo test"⟩).invocations ∧
    echoCtx.argument = (pyFindallFirstVal echoAst
        (strippedBody "!" "!echo test")).getD (FindallValue.str "") ∧
    echoCtx.argument = FindallValue.str "test" :=
  ⟨by decide, by decide,
   (claim_c7_captured_argument_is_findall_first wHasPerm wRunH wManifest "!"
      echoState "zzz" ⟨0, "alice", 0, "!echo test"⟩ echoEntry echoCtx
      (by decide)).2.2.2.2,
   by decide⟩

/-- Claim C8: register_pattern atomicity.  register_modern_command
evaluates re.compile on the pattern source before anything is appended:
an invalid source fails synchronously with the compile error and leaves
the registry unchanged, and a valid source appends exactly one modern
entry storing the compiled pattern (compiled once, at registration
time — dispatch reads the stored entry.command). -/
theorem claim_c8_register_pattern_atomic
    {Perm Plugin Handler : Type}
    (st : RegistryState Perm Plugin Handler) (pat description : String)
    (required_perm : Perm) (plugin : Plugin) (command_handler : Option Handler) :
    (∀ e, compileRe pat = .error e →
      register_modern_command st pat description required_perm plugin command_handler =
        .error e) ∧
    (∀ r, compileRe pat = .ok r →
      register_modern_command st pat description required_perm plugin command_handler =
        .ok { st with modern_commands :=
          st.modern_commands ++ [⟨r, pat, description, required_perm, plugin, command_handler⟩] }) := by
  constructor
  · intro e he
    simp [register_modern_command, he]
  · intro r hr
    simp [register_modern_command, hr]

/-- Claim C8, witness: the unbalanced source "(" fails and registers
nothing; the valid source "ab" appends exactly its compiled entry. -/
theorem claim_c8_witness :
    register_modern_command (⟨[], []⟩ : RegistryState Bool String Bool)
        "(" "d" true "plug" (some true) = .error PatternCompileError.invalid ∧
    register_modern_command (⟨[], []⟩ : RegistryState Bool String Bool)
        "ab" "d" true "plug" (some true) =
      .ok ⟨[], [⟨abAst, "ab", "d", true, "plug", some true⟩]⟩ :=
  ⟨(claim_c8_register_pattern_atomic ⟨[], []⟩ "(" "d" true "plug" (some true)).1
      PatternCompileError.invalid (by decide),
   (claim_c8_register_pattern_atomic ⟨[], []⟩ "ab" "d" true "plug" (some true)).2
      abAst (by decide)⟩

/-- Claim C9: unregister_all_commands_for_plugin is exactly a filter on
both sequences: every entry owned by the plugin is removed (each
occurrence, wherever it sits among other plugins' registrations), every
entry owned by anyone else survives with its relative order unchanged,
and the call is a no-op when the plugin owns no entries. -/
theorem claim_c9_unregister_all_is_owner_filter
    {Perm Plugin Handler : Type}
    [DecidableEq Perm] [DecidableEq Plugin] [DecidableEq Handler]
    (st : RegistryState Perm Plugin Handler) (plugin : Plugin) :
    unregister_all_commands_for_plugin st plugin =
      { commands := st.commands.filter (fun c => !decide (c.plugin = plugin)),
        modern_commands :=
          st.modern_commands.filter (fun c => !decide (c.plugin = plugin)) } := by
  unfold unregister_all_commands_for_plugin
  rw [eraseFold_self, eraseFold_self]

/-- Claim C10: an exact entry registered with the handler omitted
(Python default None) is appended and visible — get_info_for_command
returns it and get_available_commands_for_user lists it when the
permission passes — but dispatch behaves exactly as if it were absent:
handle_command on the extended registry equals handle_command on the
original one, so the entry is never invoked and nothing is raised for
it. -/
theorem claim_c10_handlerless_entry_listed_never_invoked
    {Msg Chan User Perm Plugin Handler : Type}
    (hasPermission : Perm → User → Bool)
    (runHandler : Handler → HandlerArg Msg Chan User → HOutcome)
    (manifestName : Plugin → String)
    (commandPfx : String) (st : RegistryState Perm Plugin Handler)
    (name description : String) (required_perm : Perm) (plugin : Plugin)
    (user : User) (command_name : String) (args : InboundEvent Msg Chan User) :
    get_info_for_command (register_command st name description required_perm plugin none) name =
      get_info_for_command st name ++ [⟨name, description, required_perm, plugin, none⟩] ∧
    (hasPermission required_perm user = true →
      get_available_commands_for_user hasPermission
          (register_command st name description required_perm plugin none) user =
        get_available_commands_for_user hasPermission st user ++
          [⟨name, description, required_perm, plugin, none⟩]) ∧
    handle_command hasPermission runHandler manifestName commandPfx
        (register_command st name description required_perm plugin none) command_name args =
      handle_command hasPermission runHandler manifestName commandPfx st command_name args := by
  refine ⟨?_, ?_, ?_⟩
  · simp [get_info_for_command, register_command, List.filter_append]
  · intro hp
    simp [get_available_commands_for_user, register_command, List.filter_append, hp]
  · unfold handle_command
    have hcmds : (register_command st name description required_perm plugin none).commands =
        st.commands ++ [⟨name, description, required_perm, plugin, none⟩] := rfl
    have hmod : (register_command st name description required_perm plugin none).modern_commands =
        st.modern_commands := rfl
    rw [hcmds, hmod,
      exactLoop_append_none hasPermission runHandler manifestName command_name args
        ⟨name, description, required_perm, plugin, none⟩ rfl]

/-- Claim C10, witness: registering "hello" with the handler omitted on
an empty registry: the entry is listed for a permitted user, and
dispatching "hello" invokes nothing, reports nothing and raises
nothing. -/
theorem claim_c10_witness :
    get_available_commands_for_user wHasPerm
        (register_command (⟨[], []⟩ : RegistryState Bool String Bool)
          "hello" "d" true "plug" none) "alice" =
      [⟨"hello", "d", true, "plug", none⟩] ∧
    handle_command wHasPerm wRunH wManifest "!"
        (register_command (⟨[], []⟩ : RegistryState Bool String Bool)
          "hello" "d" true "plug" none) "hello" ⟨0, "alice", 0, "hello"⟩ =
      ⟨[], [], false⟩ :=
  ⟨Eq.trans
    ((claim_c10_handlerless_entry_listed_never_invoked wHasPerm wRunH wManifest "!"
      ⟨[], []⟩ "hello" "d" true "plug" "alice" "hello" ⟨0, "alice", 0, "hello"⟩).2.1
      (by decide))
    (by decide),
   Eq.trans
    ((claim_c10_handlerless_entry_listed_never_invoked wHasPerm wRunH wManifest "!"
      ⟨[], []⟩ "hello" "d" true "plug" "alice" "hello" ⟨0, "alice", 0, "hello"⟩).2.2)
    (by decide)⟩
